import Mathlib

/-!
Verification of the interactive ASCII background engine and card registry
of the blog repository. The TypeScript/JavaScript sources are shallowly
embedded over exact rationals: grid wave energies are functions on integer
cell coordinates, the per-frame diffusion, injection and classification
passes are pure functions, and the registry is an explicit state record.
All definitions are transcribed from the source files
(InteractableBackground.tsx, its elaborate variant, and CardRegistry.jsx);
theorems below settle the specification claims against them.
-/

namespace Blog

/-- Cell pitch in pixels (`CELL_SIZE = 16` in the source). -/
def CELL_SIZE : ℚ := 16

/-- Wave decay factor (`DAMPING = 0.96`). -/
def DAMPING : ℚ := 0.96

/-- Border animation speed (`ANIM_SPEED = 0.04`). -/
def ANIM_SPEED : ℚ := 0.04

/-- Density character ramp (`CHARS`), low to high energy. -/
def CHARS : List Char := ['·', ',', ':', '+', '*', 'x', '#', '%', '@']

/-- Card bounds record handed to the background engine
(interface `CardBounds` in the elaborate InteractableBackground variant). -/
structure CardBounds where
  x : ℚ
  y : ℚ
  right : ℚ
  bottom : ℚ
  width : ℚ
  height : ℚ
  isBlocker : Bool
  isBorderEraser : Bool
  groupId : Option String
deriving DecidableEq

/-- `getPerimeterPos(x, y, rect)`: perimeter position in `[0,1)` of the
projection of a point onto the rectangle boundary, clockwise from the
top-left corner.  Direct transcription of the source function, including
the clamping, the four edge distances and the branch order
top / right / bottom / left. -/
def getPerimeterPos (x y : ℚ) (rect : CardBounds) : ℚ :=
  let relX := x - rect.x
  let relY := y - rect.y
  let w := rect.width
  let h := rect.height
  let clampedX := max 0 (min w relX)
  let clampedY := max 0 (min h relY)
  let distTop := clampedY
  let distBottom := h - clampedY
  let distLeft := clampedX
  let distRight := w - clampedX
  let minD := min distTop (min distBottom (min distLeft distRight))
  let totalPerim := 2 * (w + h)
  if minD = distTop then clampedX / totalPerim
  else if minD = distRight then (w + clampedY) / totalPerim
  else if minD = distBottom then (w + h + (w - clampedX)) / totalPerim
  else (2 * w + h + (h - clampedY)) / totalPerim

/-- `minDist(a, b)`: wrap-around distance between two perimeter positions
on the closed unit loop. -/
def minDist (a b : ℚ) : ℚ :=
  let diff := |a - b|
  min diff (1 - diff)

/-- The boundary of the rectangle described by a card bounds record
(using its `x`, `y`, `width`, `height` fields, as `getPerimeterPos` does). -/
def boundary (r : CardBounds) : Set (ℚ × ℚ) :=
  {p | ((p.2 = r.y ∨ p.2 = r.y + r.height) ∧ r.x ≤ p.1 ∧ p.1 ≤ r.x + r.width) ∨
       ((p.1 = r.x ∨ p.1 = r.x + r.width) ∧ r.y ≤ p.2 ∧ p.2 ≤ r.y + r.height)}

/-- Clockwise arc-length parametrization of the rectangle boundary:
maps a perimeter position `t ∈ [0,1)` to the corresponding boundary point.
Inverse of `getPerimeterPos` on the boundary; used to witness bijectivity. -/
def invPerimeter (r : CardBounds) (t : ℚ) : ℚ × ℚ :=
  let w := r.width
  let h := r.height
  let s := t * (2 * (w + h))
  if s < w then (r.x + s, r.y)
  else if s < w + h then (r.x + w, r.y + (s - w))
  else if s < 2 * w + h then (r.x + (2 * w + h - s), r.y + h)
  else (r.x, r.y + (2 * (w + h) - s))

/-- Per-card border animation state (`CardAnimState`). -/
structure CardAnimState where
  lightCenter : ℚ
  lightCoverage : ℚ
  darkCenter : ℚ
  darkCoverage : ℚ
  isHovered : Bool
deriving DecidableEq

/-- One frame of the per-card animation progress update
(the `animStatesRef.current.forEach` body in `render`). -/
def animStep (s : CardAnimState) : CardAnimState :=
  if s.isHovered then
    if s.lightCoverage < 0.6 then
      { s with lightCoverage := s.lightCoverage + ANIM_SPEED }
    else s
  else
    if s.darkCoverage < 0.6 then
      { s with darkCoverage := s.darkCoverage + ANIM_SPEED }
    else
      { s with lightCoverage := 0, darkCoverage := 0 }

/-- Hover-exit transition applied to the previously hovered card's state
(`state.isHovered = false; state.darkCenter = exitPos; state.darkCoverage = 0`).
The exit position is `getPerimeterPos` of the mouse position on the card
bounds, as in the source. -/
def hoverExit (s : CardAnimState) (mx my : ℚ) (rect : CardBounds) : CardAnimState :=
  { s with isHovered := false
           darkCenter := getPerimeterPos mx my rect
           darkCoverage := 0 }

/-- Hover-enter transition applied to the newly hovered card's state
(`state.isHovered = true; state.lightCenter = enterPos;
state.lightCoverage = 0; state.darkCoverage = 1`). -/
def hoverEnter (s : CardAnimState) (mx my : ℚ) (rect : CardBounds) : CardAnimState :=
  { s with isHovered := true
           lightCenter := getPerimeterPos mx my rect
           lightCoverage := 0
           darkCoverage := 1 }

/-- Geometry of a registered DOM element, the only property of the
element handle the registry ever reads (`getBoundingClientRect`). -/
structure DomRect where
  left : ℚ
  top : ℚ
  right : ℚ
  bottom : ℚ
deriving DecidableEq

/-- Bounds record produced by `getCardBounds` in CardRegistry.jsx. -/
structure BoundsRect where
  x : ℚ
  y : ℚ
  right : ℚ
  bottom : ℚ
  width : ℚ
  height : ℚ
deriving DecidableEq

/-- State of the global card registry (`cardRegistry` in CardRegistry.jsx):
insertion-ordered id-to-element map, listener set, mouse position and
hovered card index.  Listeners are modelled by opaque numeric tokens. -/
structure RegState where
  cards : List (String × DomRect)
  listeners : List ℕ
  mousePos : ℚ × ℚ
  hoveredCardIndex : ℤ
deriving DecidableEq

/-- JavaScript `Map.set` semantics on an insertion-ordered association
list: replace in place when the key exists, append otherwise. -/
def mapSet (cards : List (String × DomRect)) (id : String) (el : DomRect) :
    List (String × DomRect) :=
  if cards.any (fun p => p.1 == id) then
    cards.map (fun p => if p.1 == id then (id, el) else p)
  else cards ++ [(id, el)]

/-- JavaScript `Map.delete` semantics: remove the entry with the key,
no-op when absent. -/
def mapDelete (cards : List (String × DomRect)) (id : String) :
    List (String × DomRect) :=
  cards.eraseP (fun p => p.1 == id)

/-- `register(id, element)`: set or delete the map entry, then notify
listeners.  The second component is the list of listeners invoked by
`notifyListeners` (all currently subscribed listeners, synchronously). -/
def register (st : RegState) (id : String) (el : Option DomRect) :
    RegState × List ℕ :=
  match el with
  | some e => ({ st with cards := mapSet st.cards id e }, st.listeners)
  | none => ({ st with cards := mapDelete st.cards id }, st.listeners)

/-- `unregister(id)`: delete the map entry, then notify listeners. -/
def unregister (st : RegState) (id : String) : RegState × List ℕ :=
  ({ st with cards := mapDelete st.cards id }, st.listeners)

/-- `subscribe(listener)`: add a listener. -/
def subscribe (st : RegState) (l : ℕ) : RegState :=
  { st with listeners := st.listeners ++ [l] }

/-- `getCardBounds()`: one bounds record per registered element, in map
insertion order. -/
def getCardBounds (st : RegState) : List BoundsRect :=
  st.cards.map (fun p =>
    ⟨p.2.left, p.2.top, p.2.right, p.2.bottom,
     p.2.right - p.2.left, p.2.bottom - p.2.top⟩)

/-- The inclusive containment test of `updateMousePos`
(`x >= card.x && x <= card.right && y >= card.y && y <= card.bottom`). -/
def cardContains (c : BoundsRect) (x y : ℚ) : Bool :=
  decide (c.x ≤ x) && decide (x ≤ c.right) &&
  decide (c.y ≤ y) && decide (y ≤ c.bottom)

/-- The scanning loop of `updateMousePos`: first index whose card
contains the point, `-1` when none does. -/
def hoveredScan (l : List BoundsRect) (x y : ℚ) (i : ℤ) : ℤ :=
  match l with
  | [] => -1
  | c :: rest => if cardContains c x y then i else hoveredScan rest x y (i + 1)

/-- `updateMousePos(x, y)`: record the pointer position and recompute
`hoveredCardIndex` over the current bounds. -/
def updateMousePos (st : RegState) (x y : ℚ) : RegState :=
  { st with mousePos := (x, y)
            hoveredCardIndex := hoveredScan (getCardBounds st) x y 0 }

/-- Cell-range left column covered by a card: `Math.floor(rect.x / CELL_SIZE)`. -/
def startXOf (r : CardBounds) : ℤ := ⌊r.x / CELL_SIZE⌋

/-- Cell-range right column: `Math.floor(rect.right / CELL_SIZE)`. -/
def endXOf (r : CardBounds) : ℤ := ⌊r.right / CELL_SIZE⌋

/-- Cell-range top row: `Math.floor(rect.y / CELL_SIZE)`. -/
def startYOf (r : CardBounds) : ℤ := ⌊r.y / CELL_SIZE⌋

/-- Cell-range bottom row: `Math.floor(rect.bottom / CELL_SIZE)`. -/
def endYOf (r : CardBounds) : ℤ := ⌊r.bottom / CELL_SIZE⌋

/-- Whether a cell coordinate lies inside the grid. -/
def inGrid (cols rows x y : ℤ) : Bool :=
  decide (0 ≤ x) && decide (x < cols) && decide (0 ≤ y) && decide (y < rows)

/-- Result of the per-frame classification pass for `isBlocker`: a cell is a
blocker when some blocker card covers it strictly inside its cell range
(edge cells of the range become borders instead).  Matches the final flag
value after the marking loops of `render`, for in-grid cells. -/
def blockerAt (cols rows : ℤ) (rects : List CardBounds) (x y : ℤ) : Bool :=
  inGrid cols rows x y &&
  rects.any (fun r =>
    r.isBlocker &&
    decide (startXOf r < x) && decide (x < endXOf r) &&
    decide (startYOf r < y) && decide (y < endYOf r))

/-- Result of the classification pass for `isBorder`: covered by some
blocker card on the edge of its cell range. -/
def borderAt (cols rows : ℤ) (rects : List CardBounds) (x y : ℤ) : Bool :=
  inGrid cols rows x y &&
  rects.any (fun r =>
    r.isBlocker &&
    decide (startXOf r ≤ x) && decide (x ≤ endXOf r) &&
    decide (startYOf r ≤ y) && decide (y ≤ endYOf r) &&
    (decide (x = startXOf r) || decide (x = endXOf r) ||
     decide (y = startYOf r) || decide (y = endYOf r)))

/-- The four axis-neighbor offsets of the diffusion stencil. -/
def neighborOffsets : List (ℤ × ℤ) := [(0, -1), (0, 1), (-1, 0), (1, 0)]

/-- One diffusion update (`nextWaveEnergies[idx]`): `0` for blockers, else
the damped average of the cell's own wave energy and its in-grid
non-blocker axis-neighbors' wave energies.  The fold mirrors the
`sum`/`count` accumulation of the source loop. -/
def nextWave (cols rows : ℤ) (isB : ℤ → ℤ → Bool) (we : ℤ → ℤ → ℚ)
    (x y : ℤ) : ℚ :=
  if isB x y then 0
  else
    let acc := neighborOffsets.foldl
      (fun (sc : ℚ × ℚ) d =>
        if inGrid cols rows (x + d.1) (y + d.2) then
          if isB (x + d.1) (y + d.2) then sc
          else (sc.1 + we (x + d.1) (y + d.2), sc.2 + 1)
        else sc)
      (we x y, 1)
    (acc.1 / acc.2) * DAMPING

/-- The in-grid non-blocker axis-neighbors of a cell, as positions. -/
def freeNeighbors (cols rows : ℤ) (isB : ℤ → ℤ → Bool) (x y : ℤ) :
    List (ℤ × ℤ) :=
  (neighborOffsets.map (fun d => (x + d.1, y + d.2))).filter
    (fun n => inGrid cols rows n.1 n.2 && !isB n.1 n.2)

/-- Sum of the wave energies of the free neighbors. -/
def freeNeighborSum (cols rows : ℤ) (isB : ℤ → ℤ → Bool) (we : ℤ → ℤ → ℚ)
    (x y : ℤ) : ℚ :=
  ((freeNeighbors cols rows isB x y).map (fun n => we n.1 n.2)).sum

/-- Number of free neighbors. -/
def freeNeighborCount (cols rows : ℤ) (isB : ℤ → ℤ → Bool) (x y : ℤ) : ℕ :=
  (freeNeighbors cols rows isB x y).length

/-- Mouse energy injection at one interpolated pixel position
(`grid[idx].waveEnergy = Math.min(grid[idx].waveEnergy + 5.0, 10)`). -/
def injectAt (cols rows : ℤ) (we : ℤ → ℤ → ℚ) (p : ℚ × ℚ) : ℤ → ℤ → ℚ :=
  let gx := ⌊p.1 / CELL_SIZE⌋
  let gy := ⌊p.2 / CELL_SIZE⌋
  if inGrid cols rows gx gy then
    fun x y => if x = gx ∧ y = gy then min (we gx gy + 5) 10 else we x y
  else we

/-- Injection at every interpolated point of the frame, in order. -/
def injectPoints (cols rows : ℤ) (pts : List (ℚ × ℚ)) (we : ℤ → ℤ → ℚ) :
    ℤ → ℤ → ℚ :=
  pts.foldl (injectAt cols rows) we

/-- One full simulation step of the wave field for a frame: classify
blockers from the current card bounds, inject mouse energy at the
interpolated points, then run the diffusion update and commit. -/
def stepWave (cols rows : ℤ) (rects : List CardBounds) (pts : List (ℚ × ℚ))
    (we : ℤ → ℤ → ℚ) : ℤ → ℤ → ℚ :=
  nextWave cols rows (blockerAt cols rows rects)
    (injectPoints cols rows pts we)

/-- Horizontal pixel center of a cell (`px = x * CELL_SIZE + CELL_SIZE / 2`). -/
def pixelCenterX (x : ℤ) : ℚ := x * CELL_SIZE + CELL_SIZE / 2

/-- Vertical pixel center of a cell (`py = y * CELL_SIZE + CELL_SIZE / 2`). -/
def pixelCenterY (y : ℤ) : ℚ := y * CELL_SIZE + CELL_SIZE / 2

/-- A grid cell record (interface `Cell` of the elaborate variant). -/
structure Cell where
  energy : ℚ
  waveEnergy : ℚ
  prevWaveEnergy : ℚ
  char : Char
  isBlocker : Bool
  isBorder : Bool
  borderChar : Option Char
  cardIndex : Option ℕ
deriving DecidableEq

/-- Grid dimensions and cell array produced by `handleResize`. -/
structure GridInit where
  cols : ℤ
  rows : ℤ
  grid : List Cell
deriving DecidableEq

/-- `handleResize`: recompute `cols`/`rows` from the viewport size and
reallocate the cell array with all-zero cells. -/
def handleResize (w h : ℚ) : GridInit :=
  let cols := ⌈w / CELL_SIZE⌉ + 1
  let rows := ⌈h / CELL_SIZE⌉ + 1
  { cols := cols
    rows := rows
    grid := List.replicate (cols * rows).toNat
      { energy := 0, waveEnergy := 0, prevWaveEnergy := 0, char := '·',
        isBlocker := false, isBorder := false, borderChar := none,
        cardIndex := none } }

/-- Glyph index selection of the renderer for a free cell: clamp the
combined energy into `[0,1]`, then `Math.floor(energy * (CHARS.length - 1))`. -/
def charIndexFor (energy : ℚ) : ℤ :=
  ⌊(max 0 (min 1 energy)) * ((CHARS.length : ℚ) - 1)⌋

/-- Registry state with a single registered 100×100 card at the origin,
used to evaluate the end-to-end hover scenarios. -/
def demoReg : RegState :=
  { cards := [("card0", ⟨0, 0, 100, 100⟩)]
    listeners := [0, 1]
    mousePos := (0, 0)
    hoveredCardIndex := -1 }

/-- A 100×100 blocker card at the origin, as a bounds record. -/
def demoCard : CardBounds :=
  { x := 0, y := 0, right := 100, bottom := 100, width := 100, height := 100,
    isBlocker := true, isBorderEraser := false, groupId := none }

/-- Concrete wave field: energy 10 in cell (0,0), zero elsewhere. -/
def demoWe : ℤ → ℤ → ℚ :=
  fun x y => if x = 0 ∧ y = 0 then 10 else 0

/-- Concrete blocker classification with a single blocker cell at (1,0). -/
def demoIsB : ℤ → ℤ → Bool :=
  fun x y => decide (x = 1) && decide (y = 0)

/-- Wave field assigning energy `1` everywhere. -/
def demoOnes : ℤ → ℤ → ℚ := fun _ _ => 1

/-- Position-dependent wave field used to witness the diffusion formula. -/
def demoVar : ℤ → ℤ → ℚ := fun x y => x + 2 * y

/-- All-zero wave field. -/
def demoZero : ℤ → ℤ → ℚ := fun _ _ => 0

end Blog

namespace Blog

theorem eraseP_no_match {l : List (String × DomRect)} {id : String}
    (h : ∀ p ∈ l, p.1 ≠ id) : mapDelete l id = l := by
  rw [mapDelete, List.eraseP_eq_self_iff]
  intro p hp
  simpa using h p hp

/-- C9: `register` and `unregister` are total and silently no-op on missing
ids (the card map is unchanged when the id is absent, both for
`unregister(id)` and for `register(id, null)`), and every call notifies
exactly the currently subscribed listeners, synchronously. -/
theorem register_unregister_spec (st : RegState) (id : String) :
    ((∀ p ∈ st.cards, p.1 ≠ id) →
      (unregister st id).1.cards = st.cards ∧
      (register st id none).1.cards = st.cards) ∧
    (∀ el : Option DomRect, (register st id el).2 = st.listeners) ∧
    (unregister st id).2 = st.listeners := by
  refine ⟨fun h => ⟨?_, ?_⟩, fun el => ?_, rfl⟩
  · simpa [unregister] using eraseP_no_match h
  · simpa [register] using eraseP_no_match h
  · cases el <;> rfl

/-- Witness for C9 at a concrete registry state and missing id. -/
theorem register_unregister_spec_witness :
    (∀ p ∈ demoReg.cards, p.1 ≠ "ghost") ∧
    (unregister demoReg "ghost").1.cards = demoReg.cards ∧
    (unregister demoReg "ghost").2 = demoReg.listeners :=
  ⟨by decide,
   ((register_unregister_spec demoReg "ghost").1 (by decide)).1,
   (register_unregister_spec demoReg "ghost").2.2⟩

/-- C7: after a resize, `cols = ⌈width/CELL_SIZE⌉ + 1` and
`rows = ⌈height/CELL_SIZE⌉ + 1`, the reallocated cell array has exactly
`cols * rows` cells, and every cell starts with zero energy and zero wave
energy. -/
theorem handleResize_spec (w h : ℚ) (hw : 0 ≤ w) (hh : 0 ≤ h) :
    (handleResize w h).cols = ⌈w / CELL_SIZE⌉ + 1 ∧
    (handleResize w h).rows = ⌈h / CELL_SIZE⌉ + 1 ∧
    ((handleResize w h).grid.length : ℤ) =
      (handleResize w h).cols * (handleResize w h).rows ∧
    ∀ c ∈ (handleResize w h).grid, c.energy = 0 ∧ c.waveEnergy = 0 := by
  have hc : (0 : ℤ) ≤ ⌈w / CELL_SIZE⌉ + 1 := by
    have : (0 : ℤ) ≤ ⌈w / CELL_SIZE⌉ :=
      Int.ceil_nonneg (div_nonneg hw (by norm_num [CELL_SIZE]))
    omega
  have hr : (0 : ℤ) ≤ ⌈h / CELL_SIZE⌉ + 1 := by
    have : (0 : ℤ) ≤ ⌈h / CELL_SIZE⌉ :=
      Int.ceil_nonneg (div_nonneg hh (by norm_num [CELL_SIZE]))
    omega
  refine ⟨rfl, rfl, ?_, ?_⟩
  · simp only [handleResize, List.length_replicate]
    exact Int.toNat_of_nonneg (mul_nonneg hc hr)
  · intro c hc
    have := List.eq_of_mem_replicate hc
    subst this
    exact ⟨rfl, rfl⟩

/-- Witness for C7 at viewport 100×50: the array length equals
`cols * rows`. -/
theorem handleResize_spec_witness :
    ((0 : ℚ) ≤ 100 ∧ (0 : ℚ) ≤ 50) ∧
    ((handleResize 100 50).grid.length : ℤ) =
      (handleResize 100 50).cols * (handleResize 100 50).rows :=
  ⟨⟨by norm_num, by norm_num⟩,
   (handleResize_spec 100 50 (by norm_num) (by norm_num)).2.2.1⟩

/-- C8: for every energy value, the renderer's glyph index (computed from
the energy clamped into `[0,1]`) lies in `0 .. CHARS.length - 1`, so the
character-ramp lookup is always in bounds. -/
theorem charIndexFor_in_bounds (energy : ℚ) :
    0 ≤ charIndexFor energy ∧
    charIndexFor energy ≤ (CHARS.length : ℤ) - 1 ∧
    (charIndexFor energy).toNat < CHARS.length ∧
    (CHARS.get? (charIndexFor energy).toNat).isSome = true := by
  have hlen : (CHARS.length : ℚ) - 1 = 8 := by norm_num [CHARS]
  have h0 : (0 : ℚ) ≤ max 0 (min 1 energy) := le_max_left 0 _
  have h1 : max 0 (min 1 energy) ≤ 1 :=
    max_le (by norm_num) (min_le_left 1 energy)
  have hlb : 0 ≤ charIndexFor energy := by
    rw [charIndexFor, hlen]
    exact Int.floor_nonneg.mpr (by positivity)
  have hub : charIndexFor energy ≤ (CHARS.length : ℤ) - 1 := by
    rw [charIndexFor, hlen]
    have : max 0 (min 1 energy) * 8 ≤ 8 := by nlinarith
    calc ⌊max 0 (min 1 energy) * 8⌋ ≤ ⌊(8 : ℚ)⌋ := Int.floor_le_floor this
    _ = 8 := by norm_num
    _ = (CHARS.length : ℤ) - 1 := by norm_num [CHARS]
  have hnat : (charIndexFor energy).toNat < CHARS.length := by
    have h9 : (CHARS.length : ℤ) = 9 := by norm_num [CHARS]
    omega
  refine ⟨hlb, hub, hnat, ?_⟩
  rw [List.get?_eq_get hnat]
  rfl

theorem cardContains_iff (c : BoundsRect) (x y : ℚ) :
    cardContains c x y = true ↔
      (c.x ≤ x ∧ x ≤ c.right ∧ c.y ≤ y ∧ y ≤ c.bottom) := by
  simp [cardContains, and_assoc]

theorem cardContains_false_iff (c : BoundsRect) (x y : ℚ) :
    cardContains c x y = false ↔
      ¬(c.x ≤ x ∧ x ≤ c.right ∧ c.y ≤ y ∧ y ≤ c.bottom) := by
  rw [← cardContains_iff]
  exact Bool.eq_false_iff.trans (by rfl)

theorem hoveredScan_lb (x y : ℚ) :
    ∀ (l : List BoundsRect) (i : ℤ),
      hoveredScan l x y i = -1 ∨ i ≤ hoveredScan l x y i := by
  intro l
  induction l with
  | nil => intro i; exact Or.inl rfl
  | cons c rest ih =>
    intro i
    by_cases hc : cardContains c x y
    · rw [hoveredScan, if_pos hc]
      exact Or.inr le_rfl
    · rw [hoveredScan, if_neg hc]
      rcases ih (i + 1) with h | h
      · exact Or.inl h
      · exact Or.inr (by omega)

theorem hoveredScan_neg (x y : ℚ) :
    ∀ (l : List BoundsRect) (i : ℤ), 0 ≤ i →
      (hoveredScan l x y i = -1 ↔ ∀ c ∈ l, cardContains c x y = false) := by
  intro l
  induction l with
  | nil => intro i _; simp [hoveredScan]
  | cons c rest ih =>
    intro i hi
    by_cases hc : cardContains c x y
    · rw [hoveredScan, if_pos hc]
      constructor
      · intro h; omega
      · intro h
        exact absurd (h c (List.mem_cons_self c rest)) (by simp [hc])
    · rw [hoveredScan, if_neg hc]
      rw [ih (i + 1) (by omega)]
      constructor
      · intro h c2 hc2
        rcases List.mem_cons.mp hc2 with rfl | hc2
        · exact Bool.eq_false_iff.mpr hc
        · exact h c2 hc2
      · intro h c2 hc2
        exact h c2 (List.mem_cons_of_mem c hc2)

theorem hoveredScan_found (x y : ℚ) :
    ∀ (l : List BoundsRect) (i : ℤ), 0 ≤ i →
      ∀ (k : ℕ) (hk : k < l.length),
      (hoveredScan l x y i = i + k ↔
        (cardContains (l.get ⟨k, hk⟩) x y = true ∧
          ∀ (j : ℕ) (hj : j < l.length), j < k →
            cardContains (l.get ⟨j, hj⟩) x y = false)) := by
  intro l
  induction l with
  | nil =>
    intro i _ k hk
    exact absurd hk (by simp)
  | cons c rest ih =>
    intro i hi k hk
    by_cases hc : cardContains c x y
    · rw [hoveredScan, if_pos hc]
      match k with
      | 0 =>
        simp only [List.get]
        constructor
        · intro _
          exact ⟨hc, fun j hj hj0 => absurd hj0 (by omega)⟩
        · intro _; omega
      | k + 1 =>
        constructor
        · intro h; omega
        · intro ⟨_, h⟩
          have h0 := h 0 (by simp) (by omega)
          rw [List.get] at h0
          exact absurd h0 (by simp [hc])
    · rw [hoveredScan, if_neg hc]
      match k with
      | 0 =>
        constructor
        · intro h
          rcases hoveredScan_lb x y rest (i + 1) with h2 | h2 <;> omega
        · intro ⟨h0, _⟩
          rw [List.get] at h0
          exact absurd h0 hc
      | k + 1 =>
        have hk2 : k < rest.length := by simpa using hk
        have := ih (i + 1) (by omega) k hk2
        constructor
        · intro h
          have heq : hoveredScan rest x y (i + 1) = (i + 1) + k := by omega
          obtain ⟨h1, h2⟩ := this.mp heq
          refine ⟨h1, ?_⟩
          intro j hj hjk
          match j with
          | 0 => exact Bool.eq_false_iff.mpr hc
          | j + 1 => exact h2 j (by simpa using hj) (by omega)
        · intro ⟨h1, h2⟩
          have : hoveredScan rest x y (i + 1) = (i + 1) + k := by
            refine this.mpr ⟨h1, ?_⟩
            intro j hj hjk
            exact h2 (j + 1) (by simpa using hj) (by omega)
          omega

/-- C5: `updateMousePos(x, y)` records the pointer position and sets
`hoveredCardIndex` to the index of the first card, in bounds order, whose
rectangle contains the point under the inclusive bounds test, and to `-1`
when no card contains it; concretely, with one registered 100×100 card at
the origin, `(50, 50)` yields index `0` and `(200, 200)` yields `-1`. -/
theorem updateMousePos_spec (st : RegState) (x y : ℚ) :
    (updateMousePos st x y).mousePos = (x, y) ∧
    ((updateMousePos st x y).hoveredCardIndex = -1 ↔
      ∀ c ∈ getCardBounds st,
        ¬(c.x ≤ x ∧ x ≤ c.right ∧ c.y ≤ y ∧ y ≤ c.bottom)) ∧
    (∀ (k : ℕ) (hk : k < (getCardBounds st).length),
      ((updateMousePos st x y).hoveredCardIndex = k ↔
        ((((getCardBounds st).get ⟨k, hk⟩).x ≤ x ∧
          x ≤ (((getCardBounds st).get ⟨k, hk⟩)).right ∧
          (((getCardBounds st).get ⟨k, hk⟩)).y ≤ y ∧
          y ≤ (((getCardBounds st).get ⟨k, hk⟩)).bottom) ∧
        ∀ (j : ℕ) (hj : j < (getCardBounds st).length), j < k →
          ¬((((getCardBounds st).get ⟨j, hj⟩)).x ≤ x ∧
            x ≤ (((getCardBounds st).get ⟨j, hj⟩)).right ∧
            (((getCardBounds st).get ⟨j, hj⟩)).y ≤ y ∧
            y ≤ (((getCardBounds st).get ⟨j, hj⟩)).bottom)))) ∧
    (updateMousePos demoReg 50 50).hoveredCardIndex = 0 ∧
    (updateMousePos demoReg 200 200).hoveredCardIndex = -1 := by
  refine ⟨rfl, ?_, ?_, by decide, by decide⟩
  · show hoveredScan (getCardBounds st) x y 0 = -1 ↔ _
    rw [hoveredScan_neg x y (getCardBounds st) 0 le_rfl]
    exact forall₂_congr fun c _ => cardContains_false_iff c x y
  · intro k hk
    show hoveredScan (getCardBounds st) x y 0 = (k : ℤ) ↔ _
    have := hoveredScan_found x y (getCardBounds st) 0 le_rfl k hk
    rw [zero_add] at this
    rw [this, cardContains_iff]
    refine and_congr Iff.rfl (forall_congr' fun j => forall_congr' fun hj =>
      forall_congr' fun _ => cardContains_false_iff _ x y)

/-- C4: when the hovered index changes away from a card, the exit
transition marks it unhovered, stores the exit perimeter position in
`darkCenter` and resets `darkCoverage` to 0; on that very frame update the
light coverage stays put while the dark coverage takes its first step; and
on the frame after `darkCoverage` has reached its 0.6 ceiling both
coverages equal 0. -/
theorem borderAnim_exit_reset (s : CardAnimState) (mx my : ℚ)
    (rect : CardBounds) :
    ((hoverExit s mx my rect).isHovered = false ∧
     (hoverExit s mx my rect).darkCenter = getPerimeterPos mx my rect ∧
     (hoverExit s mx my rect).darkCoverage = 0 ∧
     (animStep (hoverExit s mx my rect)).lightCoverage = s.lightCoverage ∧
     (animStep (hoverExit s mx my rect)).darkCoverage = ANIM_SPEED ∧
     (hoverExit s mx my rect).darkCoverage <
       (animStep (hoverExit s mx my rect)).darkCoverage) ∧
    (∀ s2 : CardAnimState, s2.isHovered = false →
      (animStep s2).lightCoverage = s2.lightCoverage ∨
      (animStep s2).lightCoverage = 0) ∧
    (∀ s2 : CardAnimState, s2.isHovered = false → 0.6 ≤ s2.darkCoverage →
      (animStep s2).lightCoverage = 0 ∧ (animStep s2).darkCoverage = 0) := by
  refine ⟨⟨rfl, rfl, rfl, ?_, ?_, ?_⟩, ?_, ?_⟩
  · simp [animStep, hoverExit]
    norm_num
  · simp [animStep, hoverExit]
    norm_num
  · simp [animStep, hoverExit, ANIM_SPEED]
    norm_num
  · intro s2 h2
    rw [animStep, h2]
    simp only [Bool.false_eq_true, if_false]
    by_cases hd : s2.darkCoverage < 0.6
    · rw [if_pos hd]
      exact Or.inl rfl
    · rw [if_neg hd]
      exact Or.inr rfl
  · intro s2 h2 hd
    rw [animStep, h2]
    simp only [Bool.false_eq_true, if_false]
    rw [if_neg (by exact not_lt.mpr hd)]
    exact ⟨rfl, rfl⟩

/-- Witness for C4: a card state whose dark coverage has reached the
ceiling is fully reset by the next frame update. -/
theorem borderAnim_exit_reset_witness :
    ((⟨0, 0, 0, 0.6, false⟩ : CardAnimState).isHovered = false ∧
      (0.6 : ℚ) ≤ (⟨0, 0, 0, 0.6, false⟩ : CardAnimState).darkCoverage) ∧
    (animStep ⟨0, 0, 0, 0.6, false⟩).lightCoverage = 0 ∧
    (animStep ⟨0, 0, 0, 0.6, false⟩).darkCoverage = 0 :=
  ⟨⟨rfl, le_rfl⟩,
   (borderAnim_exit_reset ⟨0, 0, 0, 0.6, false⟩ 0 0 demoCard).2.2
     ⟨0, 0, 0, 0.6, false⟩ rfl le_rfl⟩

/-- Counterexample to C6 as stated: with `darkCoverage` at its 0.6 ceiling
and the card still unhovered, the next frame update drops `darkCoverage`
back to 0, so it does not monotonically increase throughout the unhovered
phase. -/
theorem borderAnim_dark_not_monotone :
    (⟨0, 0, 0, 0.6, false⟩ : CardAnimState).isHovered = false ∧
    (animStep ⟨0, 0, 0, 0.6, false⟩).isHovered = false ∧
    (animStep ⟨0, 0, 0, 0.6, false⟩).darkCoverage = 0 ∧
    ¬((⟨0, 0, 0, 0.6, false⟩ : CardAnimState).darkCoverage ≤
        (animStep ⟨0, 0, 0, 0.6, false⟩).darkCoverage) := by
  refine ⟨rfl, ?_, ?_, ?_⟩
  · rw [animStep]; norm_num
  · rw [animStep]; norm_num
  · rw [animStep]; norm_num

/-- C6 (amended): while hovered, `lightCoverage` grows by the fixed step
`ANIM_SPEED` each frame until it reaches the 0.6 ceiling, where it
saturates (and it never decreases); while unhovered and below the ceiling,
`darkCoverage` grows by the same fixed step (light untouched); on the frame
after `darkCoverage` reaches the ceiling both coverages are reset to 0
(rather than saturating); `lightCoverage` is reset to 0 on hover enter and
`darkCoverage` on hover exit. -/
theorem borderAnim_coverage_phases :
    (∀ s : CardAnimState, s.isHovered = true →
      (s.lightCoverage < 0.6 →
        (animStep s).lightCoverage = s.lightCoverage + ANIM_SPEED) ∧
      (0.6 ≤ s.lightCoverage →
        (animStep s).lightCoverage = s.lightCoverage) ∧
      s.lightCoverage ≤ (animStep s).lightCoverage ∧
      (animStep s).darkCoverage = s.darkCoverage) ∧
    (∀ s : CardAnimState, s.isHovered = false → s.darkCoverage < 0.6 →
      (animStep s).darkCoverage = s.darkCoverage + ANIM_SPEED ∧
      (animStep s).lightCoverage = s.lightCoverage) ∧
    (∀ s : CardAnimState, s.isHovered = false → 0.6 ≤ s.darkCoverage →
      (animStep s).darkCoverage = 0 ∧ (animStep s).lightCoverage = 0) ∧
    (∀ (s : CardAnimState) (mx my : ℚ) (rect : CardBounds),
      (hoverEnter s mx my rect).lightCoverage = 0 ∧
      (hoverExit s mx my rect).darkCoverage = 0) := by
  refine ⟨?_, ?_, ?_, fun s mx my rect => ⟨rfl, rfl⟩⟩
  · intro s hs
    rw [animStep, hs]
    simp only [if_true]
    by_cases hl : s.lightCoverage < 0.6
    · rw [if_pos hl]
      refine ⟨fun _ => rfl, fun h => absurd hl (not_lt.mpr h), ?_, rfl⟩
      simp
      norm_num [ANIM_SPEED]
    · rw [if_neg hl]
      exact ⟨fun h => absurd h hl, fun _ => rfl, le_rfl, rfl⟩
  · intro s hs hd
    rw [animStep, hs]
    simp only [Bool.false_eq_true, if_false]
    rw [if_pos hd]
    exact ⟨rfl, rfl⟩
  · intro s hs hd
    rw [animStep, hs]
    simp only [Bool.false_eq_true, if_false]
    rw [if_neg (not_lt.mpr hd)]
    exact ⟨rfl, rfl⟩

/-- Witness for C6: a hovered card below the ceiling takes one fixed light
step. -/
theorem borderAnim_coverage_phases_witness :
    ((⟨0, 0.2, 0, 0, true⟩ : CardAnimState).isHovered = true ∧
      (⟨0, 0.2, 0, 0, true⟩ : CardAnimState).lightCoverage < 0.6) ∧
    (animStep ⟨0, 0.2, 0, 0, true⟩).lightCoverage = 0.2 + ANIM_SPEED :=
  ⟨⟨rfl, by norm_num⟩,
   (borderAnim_coverage_phases.1 ⟨0, 0.2, 0, 0, true⟩ rfl).1 (by norm_num)⟩

theorem diffuse_foldl (cols rows : ℤ) (isB : ℤ → ℤ → Bool) (we : ℤ → ℤ → ℚ)
    (x y : ℤ) :
    ∀ (l : List (ℤ × ℤ)) (s c : ℚ),
      l.foldl
        (fun (sc : ℚ × ℚ) d =>
          if inGrid cols rows (x + d.1) (y + d.2) then
            if isB (x + d.1) (y + d.2) then sc
            else (sc.1 + we (x + d.1) (y + d.2), sc.2 + 1)
          else sc) (s, c) =
      (s + (((l.map (fun d => (x + d.1, y + d.2))).filter
          (fun n => inGrid cols rows n.1 n.2 && !isB n.1 n.2)).map
            (fun n => we n.1 n.2)).sum,
       c + ((((l.map (fun d => (x + d.1, y + d.2))).filter
          (fun n => inGrid cols rows n.1 n.2 && !isB n.1 n.2)).length : ℚ))) := by
  intro l
  induction l with
  | nil => intro s c; simp
  | cons d l ih =>
    intro s c
    rw [List.foldl_cons, List.map_cons, List.filter_cons]
    by_cases h1 : inGrid cols rows (x + d.1) (y + d.2) = true
    · by_cases h2 : isB (x + d.1) (y + d.2) = true
      · rw [if_pos h1, if_pos h2, ih s c]
        have hcond : (inGrid cols rows (x + d.1) (y + d.2) &&
            !isB (x + d.1) (y + d.2)) = false := by simp [h1, h2]
        rw [hcond]
        simp
      · rw [if_pos h1, if_neg h2, ih (s + we (x + d.1) (y + d.2)) (c + 1)]
        have hcond : (inGrid cols rows (x + d.1) (y + d.2) &&
            !isB (x + d.1) (y + d.2)) = true := by
          simp [h1]
          exact Bool.eq_false_iff.mpr h2
        rw [hcond]
        simp only [if_true, List.map_cons, List.sum_cons, List.length_cons,
          Prod.mk.injEq]
        push_cast
        constructor <;> ring
    · rw [if_neg h1, ih s c]
      have hcond : (inGrid cols rows (x + d.1) (y + d.2) &&
          !isB (x + d.1) (y + d.2)) = false := by
        simp [Bool.eq_false_iff.mpr h1]
      rw [hcond]
      simp

theorem nextWave_eq_mean (cols rows : ℤ) (isB : ℤ → ℤ → Bool)
    (we : ℤ → ℤ → ℚ) (x y : ℤ) (hfree : isB x y = false) :
    nextWave cols rows isB we x y =
      DAMPING * ((we x y + freeNeighborSum cols rows isB we x y) /
        (1 + (freeNeighborCount cols rows isB x y : ℚ))) := by
  rw [nextWave, if_neg (by simp [hfree])]
  rw [diffuse_foldl cols rows isB we x y neighborOffsets (we x y) 1]
  rw [freeNeighborSum, freeNeighborCount, freeNeighbors]
  ring

/-- C1: for every non-blocker cell, one diffusion step sets its next wave
energy to the damping factor times the mean of its own wave energy and the
wave energies of its in-grid non-blocker axis-neighbors (blocker neighbors
are excluded from both sum and count); in particular, a cell whose four
axis-neighbors are in-grid with exactly one of them a blocker receives the
damped mean of itself and the three non-blocker neighbors, and blocker
cells themselves receive no energy (their next wave energy is 0). -/
theorem diffusion_insulation (cols rows : ℤ) (isB : ℤ → ℤ → Bool)
    (we : ℤ → ℤ → ℚ) (x y : ℤ) (hfree : isB x y = false) :
    (nextWave cols rows isB we x y =
      DAMPING * ((we x y + freeNeighborSum cols rows isB we x y) /
        (1 + (freeNeighborCount cols rows isB x y : ℚ)))) ∧
    (∀ d0 ∈ neighborOffsets, isB (x + d0.1) (y + d0.2) = true →
      (∀ d ∈ neighborOffsets, d ≠ d0 →
        inGrid cols rows (x + d.1) (y + d.2) = true ∧
        isB (x + d.1) (y + d.2) = false) →
      nextWave cols rows isB we x y =
        DAMPING * ((we x y +
          ((neighborOffsets.filter (fun d => d ≠ d0)).map
            (fun d => we (x + d.1) (y + d.2))).sum) / 4)) ∧
    (∀ x2 y2 : ℤ, isB x2 y2 = true → nextWave cols rows isB we x2 y2 = 0) := by
  refine ⟨nextWave_eq_mean cols rows isB we x y hfree, ?_, ?_⟩
  · intro d0 hd0 hblock hothers
    rw [nextWave_eq_mean cols rows isB we x y hfree]
    fin_cases hd0 <;>
    · first
      | (have h1 := hothers (0, 1) (by simp [neighborOffsets]) (by decide)
         have h2 := hothers (-1, 0) (by simp [neighborOffsets]) (by decide)
         have h3 := hothers (1, 0) (by simp [neighborOffsets]) (by decide)
         simp only [freeNeighborSum, freeNeighborCount, freeNeighbors,
           neighborOffsets, List.map_cons, List.map_nil, List.filter,
           hblock, h1.1, h1.2, h2.1, h2.2, h3.1, h3.2]
         norm_num)
      | (have h1 := hothers (0, -1) (by simp [neighborOffsets]) (by decide)
         have h2 := hothers (-1, 0) (by simp [neighborOffsets]) (by decide)
         have h3 := hothers (1, 0) (by simp [neighborOffsets]) (by decide)
         simp only [freeNeighborSum, freeNeighborCount, freeNeighbors,
           neighborOffsets, List.map_cons, List.map_nil, List.filter,
           hblock, h1.1, h1.2, h2.1, h2.2, h3.1, h3.2]
         norm_num)
      | (have h1 := hothers (0, -1) (by simp [neighborOffsets]) (by decide)
         have h2 := hothers (0, 1) (by simp [neighborOffsets]) (by decide)
         have h3 := hothers (1, 0) (by simp [neighborOffsets]) (by decide)
         simp only [freeNeighborSum, freeNeighborCount, freeNeighbors,
           neighborOffsets, List.map_cons, List.map_nil, List.filter,
           hblock, h1.1, h1.2, h2.1, h2.2, h3.1, h3.2]
         norm_num)
      | (have h1 := hothers (0, -1) (by simp [neighborOffsets]) (by decide)
         have h2 := hothers (0, 1) (by simp [neighborOffsets]) (by decide)
         have h3 := hothers (-1, 0) (by simp [neighborOffsets]) (by decide)
         simp only [freeNeighborSum, freeNeighborCount, freeNeighbors,
           neighborOffsets, List.map_cons, List.map_nil, List.filter,
           hblock, h1.1, h1.2, h2.1, h2.2, h3.1, h3.2]
         norm_num)
  · intro x2 y2 h2
    rw [nextWave, if_pos h2]

/-- Witness for C1: in a 3×3 grid with a single blocker at (1,0), the cell
(1,1) is diffused as the damped mean over itself and its three free
neighbors (count 3, so denominator 4). -/
theorem diffusion_insulation_witness :
    (demoIsB 1 1 = false ∧ demoIsB 1 0 = true ∧
      freeNeighborCount 3 3 demoIsB 1 1 = 3) ∧
    nextWave 3 3 demoIsB demoVar 1 1 =
      DAMPING * ((demoVar 1 1 + freeNeighborSum 3 3 demoIsB demoVar 1 1) /
        (1 + (freeNeighborCount 3 3 demoIsB 1 1 : ℚ))) :=
  ⟨⟨by decide, by decide, by decide⟩,
   (diffusion_insulation 3 3 demoIsB demoVar 1 1 (by decide)).1⟩

/-- Counterexample to C2 as stated: for the 100×100 blocker card at the
origin, the cell (0,0) has its pixel center (8,8) strictly inside the
card's rectangle, yet after one simulation step its wave energy is
16/5 ≠ 0 — it is classified as a border cell, not a blocker. -/
theorem blocker_center_counterexample :
    (demoCard.isBlocker = true ∧
     demoCard.x < pixelCenterX 0 ∧ pixelCenterX 0 < demoCard.right ∧
     demoCard.y < pixelCenterY 0 ∧ pixelCenterY 0 < demoCard.bottom) ∧
    blockerAt 10 10 [demoCard] 0 0 = false ∧
    borderAt 10 10 [demoCard] 0 0 = true ∧
    stepWave 10 10 [demoCard] [] demoWe 0 0 = 16 / 5 ∧
    stepWave 10 10 [demoCard] [] demoWe 0 0 ≠ 0 := by
  have hstep : stepWave 10 10 [demoCard] [] demoWe 0 0 = 16 / 5 := by
    norm_num [stepWave, nextWave, injectPoints, neighborOffsets, blockerAt,
      inGrid, demoCard, startXOf, endXOf, startYOf, endYOf, CELL_SIZE,
      DAMPING, demoWe]
  refine ⟨⟨rfl, ?_, ?_, ?_, ?_⟩, ?_, ?_, hstep, by rw [hstep]; norm_num⟩
  · norm_num [demoCard, pixelCenterX, CELL_SIZE]
  · norm_num [demoCard, pixelCenterX, CELL_SIZE]
  · norm_num [demoCard, pixelCenterY, CELL_SIZE]
  · norm_num [demoCard, pixelCenterY, CELL_SIZE]
  · norm_num [blockerAt, inGrid, demoCard, startXOf, endXOf, startYOf,
      endYOf, CELL_SIZE]
  · norm_num [borderAt, inGrid, demoCard, startXOf, endXOf, startYOf,
      endYOf, CELL_SIZE]

/-- C2 (amended): every cell classified `isBlocker` — that is, every
in-grid cell lying strictly inside the cell-index rectangle covered by
some blocker card — has wave energy 0 after one simulation step, the
classification being recomputed from the card bounds in the same frame; a
cell whose pixel center is strictly inside the card rectangle can instead
lie on the covered range's edge, where it is a border cell and may keep
nonzero energy. -/
theorem blocker_cells_zero_after_step (cols rows : ℤ)
    (rects : List CardBounds) (pts : List (ℚ × ℚ)) (we : ℤ → ℤ → ℚ)
    (x y : ℤ) :
    (blockerAt cols rows rects x y = true →
      stepWave cols rows rects pts we x y = 0) ∧
    (blockerAt cols rows rects x y = true ↔
      inGrid cols rows x y = true ∧
      ∃ r ∈ rects, r.isBlocker = true ∧
        startXOf r < x ∧ x < endXOf r ∧ startYOf r < y ∧ y < endYOf r) := by
  constructor
  · intro h
    rw [stepWave, nextWave, if_pos h]
  · rw [blockerAt]
    simp [List.any_eq_true, and_assoc]

/-- Witness for C2: a strictly interior cell of the demo card is a blocker
and ends the step with zero wave energy. -/
theorem blocker_cells_zero_after_step_witness :
    blockerAt 10 10 [demoCard] 3 3 = true ∧
    stepWave 10 10 [demoCard] [] demoWe 3 3 = 0 := by
  have hb : blockerAt 10 10 [demoCard] 3 3 = true := by
    norm_num [blockerAt, inGrid, demoCard, startXOf, endXOf, startYOf,
      endYOf, CELL_SIZE]
  exact ⟨hb, (blocker_cells_zero_after_step 10 10 [demoCard] [] demoWe 3 3).1 hb⟩

theorem injectAt_bounds (cols rows : ℤ) (we : ℤ → ℤ → ℚ)
    (hwe : ∀ x y, 0 ≤ we x y ∧ we x y ≤ 10) (p : ℚ × ℚ) :
    ∀ x y, 0 ≤ injectAt cols rows we p x y ∧
      injectAt cols rows we p x y ≤ 10 := by
  intro x y
  rw [injectAt]
  by_cases hm : inGrid cols rows ⌊p.1 / CELL_SIZE⌋ ⌊p.2 / CELL_SIZE⌋ = true
  · rw [if_pos hm]
    by_cases hxy : x = ⌊p.1 / CELL_SIZE⌋ ∧ y = ⌊p.2 / CELL_SIZE⌋
    · simp only [if_pos hxy]
      constructor
      · exact le_min (by linarith [(hwe ⌊p.1 / CELL_SIZE⌋ ⌊p.2 / CELL_SIZE⌋).1])
          (by norm_num)
      · exact min_le_right _ _
    · simp only [if_neg hxy]
      exact hwe x y
  · rw [if_neg hm]
    exact hwe x y

theorem injectPoints_bounds (cols rows : ℤ) :
    ∀ (pts : List (ℚ × ℚ)) (we : ℤ → ℤ → ℚ),
      (∀ x y, 0 ≤ we x y ∧ we x y ≤ 10) →
      ∀ x y, 0 ≤ injectPoints cols rows pts we x y ∧
        injectPoints cols rows pts we x y ≤ 10 := by
  intro pts
  induction pts with
  | nil => intro we hwe; exact hwe
  | cons p pts ih =>
    intro we hwe
    exact ih (injectAt cols rows we p) (injectAt_bounds cols rows we hwe p)

theorem mapped_sum_bounds (f : ℤ × ℤ → ℚ) :
    ∀ l : List (ℤ × ℤ), (∀ n ∈ l, 0 ≤ f n ∧ f n ≤ 10) →
      0 ≤ (l.map f).sum ∧ (l.map f).sum ≤ 10 * l.length := by
  intro l
  induction l with
  | nil => intro _; simp
  | cons n l ih =>
    intro h
    have hn := h n (List.mem_cons_self n l)
    have hrest := ih fun m hm => h m (List.mem_cons_of_mem n hm)
    simp only [List.map_cons, List.sum_cons, List.length_cons]
    constructor
    · linarith [hn.1, hrest.1]
    · push_cast
      linarith [hn.2, hrest.2]

theorem nextWave_bounds (cols rows : ℤ) (isB : ℤ → ℤ → Bool)
    (we : ℤ → ℤ → ℚ) (hwe : ∀ x y, 0 ≤ we x y ∧ we x y ≤ 10) :
    ∀ x y, 0 ≤ nextWave cols rows isB we x y ∧
      nextWave cols rows isB we x y ≤ 10 := by
  intro x y
  by_cases hb : isB x y = true
  · rw [nextWave, if_pos hb]
    norm_num
  · rw [nextWave_eq_mean cols rows isB we x y (Bool.eq_false_iff.mpr hb)]
    have hsum := mapped_sum_bounds (fun n => we n.1 n.2)
      (freeNeighbors cols rows isB x y) (fun n _ => hwe n.1 n.2)
    have hself := hwe x y
    set k : ℚ := (freeNeighborCount cols rows isB x y : ℚ) with hk
    have hk0 : 0 ≤ k := by positivity
    have hden : (0 : ℚ) < 1 + k := by linarith
    have hnum0 : 0 ≤ we x y + freeNeighborSum cols rows isB we x y := by
      have := hsum.1
      rw [freeNeighborSum]
      linarith [hself.1]
    have hnum10 : we x y + freeNeighborSum cols rows isB we x y ≤
        10 * (1 + k) := by
      have h2 := hsum.2
      rw [freeNeighborSum]
      rw [freeNeighborCount] at hk
      ring_nf
      ring_nf at h2
      nlinarith [hself.2]
    have hmean0 : 0 ≤ (we x y + freeNeighborSum cols rows isB we x y) /
        (1 + k) := div_nonneg hnum0 hden.le
    have hmean10 : (we x y + freeNeighborSum cols rows isB we x y) /
        (1 + k) ≤ 10 := by
      rw [div_le_iff₀ hden]
      linarith
    constructor
    · have : (0 : ℚ) ≤ DAMPING := by norm_num [DAMPING]
      positivity
    · calc DAMPING * ((we x y + freeNeighborSum cols rows isB we x y) /
          (1 + k)) ≤ 1 * 10 := by
            apply mul_le_mul (by norm_num [DAMPING]) hmean10 hmean0 (by norm_num)
      _ = 10 := by norm_num

/-- C10: starting from any wave field with values in `[0, 10]` (in
particular the all-zero grid), both the mouse-injection pass (which uses
`min(waveEnergy + 5, 10)`) and the full simulation step (injection
followed by the damped diffusion average) keep every cell's wave energy in
`[0, 10]`. -/
theorem wave_energy_bounded (cols rows : ℤ) (rects : List CardBounds)
    (pts : List (ℚ × ℚ)) (we : ℤ → ℤ → ℚ)
    (hwe : ∀ x y, 0 ≤ we x y ∧ we x y ≤ 10) :
    (∀ x y, 0 ≤ injectPoints cols rows pts we x y ∧
      injectPoints cols rows pts we x y ≤ 10) ∧
    (∀ x y, 0 ≤ stepWave cols rows rects pts we x y ∧
      stepWave cols rows rects pts we x y ≤ 10) := by
  have hinj := injectPoints_bounds cols rows pts we hwe
  exact ⟨hinj, nextWave_bounds cols rows (blockerAt cols rows rects)
    (injectPoints cols rows pts we) hinj⟩

/-- Witness for C10: from the all-zero grid, one step on a 1×1 grid stays
within `[0, 10]`. -/
theorem wave_energy_bounded_witness :
    0 ≤ stepWave 1 1 [] [] demoZero 0 0 ∧
    stepWave 1 1 [] [] demoZero 0 0 ≤ 10 :=
  (wave_energy_bounded 1 1 [] [] demoZero
    (fun _ _ => ⟨le_rfl, by norm_num [demoZero]⟩)).2 0 0

theorem gpp_top (r : CardBounds) (hh : 0 < r.height) (a : ℚ)
    (ha0 : 0 ≤ a) (haw : a ≤ r.width) :
    getPerimeterPos (r.x + a) r.y r = a / (2 * (r.width + r.height)) := by
  simp only [getPerimeterPos, add_sub_cancel_left, sub_self, sub_zero]
  rw [min_eq_right haw, max_eq_right ha0, min_eq_right hh.le, max_self]
  simp only [sub_zero]
  rw [if_pos]
  exact min_eq_left (le_min hh.le (le_min ha0 (by linarith)))

theorem gpp_right (r : CardBounds) (hw : 0 < r.width) (hh : 0 < r.height)
    (b : ℚ) (hb0 : 0 ≤ b) (hbh : b ≤ r.height) :
    getPerimeterPos (r.x + r.width) (r.y + b) r =
      (r.width + b) / (2 * (r.width + r.height)) := by
  simp only [getPerimeterPos, add_sub_cancel_left]
  rw [min_self, max_eq_right hw.le, min_eq_right hbh, max_eq_right hb0,
    sub_self]
  have e1 : min r.width (0 : ℚ) = 0 := min_eq_right hw.le
  have e2 : min (r.height - b) (0 : ℚ) = 0 := min_eq_right (by linarith)
  have e3 : min b (0 : ℚ) = 0 := min_eq_right hb0
  rw [e1, e2, e3]
  by_cases hb : b = 0
  · rw [if_pos (by rw [hb]), hb, add_zero]
  · rw [if_neg (fun hcon => hb hcon.symm), if_pos rfl]

theorem gpp_bottom (r : CardBounds) (hw : 0 < r.width) (hh : 0 < r.height)
    (a : ℚ) (ha0 : 0 ≤ a) (haw : a ≤ r.width) :
    getPerimeterPos (r.x + a) (r.y + r.height) r =
      (r.width + r.height + (r.width - a)) / (2 * (r.width + r.height)) := by
  simp only [getPerimeterPos, add_sub_cancel_left]
  rw [min_eq_right haw, max_eq_right ha0, min_self, max_eq_right hh.le,
    sub_self]
  have hmin : min r.height (min 0 (min a (r.width - a))) = 0 := by
    rw [min_eq_left (le_min ha0 (by linarith)), min_eq_right hh.le]
  rw [hmin]
  rw [if_neg (fun hcon => hh.ne hcon)]
  by_cases ha : a = r.width
  · rw [if_pos (by rw [ha, sub_self]), ha, sub_self, add_zero]
  · rw [if_neg (fun hcon => ha (by linarith [hcon.symm])), if_pos rfl]

theorem gpp_left (r : CardBounds) (hw : 0 < r.width) (hh : 0 < r.height)
    (b : ℚ) (hb0 : 0 < b) (hbh : b ≤ r.height) :
    getPerimeterPos r.x (r.y + b) r =
      (2 * r.width + r.height + (r.height - b)) /
        (2 * (r.width + r.height)) := by
  simp only [getPerimeterPos, add_sub_cancel_left, sub_self]
  rw [min_eq_right hw.le, max_self, min_eq_right hbh, max_eq_right hb0.le,
    sub_zero]
  have e1 : min (0 : ℚ) r.width = 0 := min_eq_left hw.le
  have e2 : min (r.height - b) (0 : ℚ) = 0 := min_eq_right (by linarith)
  have e3 : min b (0 : ℚ) = 0 := min_eq_right hb0.le
  rw [e1, e2, e3]
  rw [if_neg (fun hcon => hb0.ne hcon), if_neg (fun hcon => hw.ne hcon)]
  by_cases hb : b = r.height
  · rw [if_pos (by rw [hb, sub_self]), hb]
    ring_nf
  · rw [if_neg (fun hcon => hb (by linarith [hcon.symm]))]

theorem gpp_wrap (r : CardBounds) (hw : 0 < r.width) (hh : 0 < r.height) :
    getPerimeterPos r.x r.y r = 0 := by
  simp only [getPerimeterPos, sub_self]
  rw [min_eq_right hw.le, min_eq_right hh.le, max_self, sub_zero, sub_zero]
  rw [if_pos]
  · exact zero_div _
  · exact min_eq_left (le_min hh.le (le_min le_rfl hw.le))

theorem gpp_range (r : CardBounds) (hw : 0 < r.width) (hh : 0 < r.height)
    (px py : ℚ) :
    0 ≤ getPerimeterPos px py r ∧ getPerimeterPos px py r < 1 := by
  simp only [getPerimeterPos]
  set cX := max 0 (min r.width (px - r.x)) with hcX
  set cY := max 0 (min r.height (py - r.y)) with hcY
  have hcX0 : 0 ≤ cX := le_max_left 0 _
  have hcXw : cX ≤ r.width := max_le hw.le (min_le_left _ _)
  have hcY0 : 0 ≤ cY := le_max_left 0 _
  have hcYh : cY ≤ r.height := max_le hh.le (min_le_left _ _)
  have hP : (0 : ℚ) < 2 * (r.width + r.height) := by linarith
  split_ifs with h1 h2 h3
  · exact ⟨div_nonneg hcX0 hP.le, (div_lt_one hP).mpr (by linarith)⟩
  · exact ⟨div_nonneg (by linarith) hP.le,
      (div_lt_one hP).mpr (by linarith)⟩
  · exact ⟨div_nonneg (by linarith) hP.le,
      (div_lt_one hP).mpr (by linarith)⟩
  · have hcYpos : 0 < cY := by
      rcases lt_or_eq_of_le hcY0 with h | h
      · exact h
      · exfalso
        apply h1
        rw [← h]
        exact min_eq_left (le_min (by linarith) (le_min hcX0 (by linarith)))
    exact ⟨div_nonneg (by linarith) hP.le,
      (div_lt_one hP).mpr (by linarith)⟩

theorem invPerimeter_maps (r : CardBounds) (hw : 0 < r.width)
    (hh : 0 < r.height) (t : ℚ) (ht0 : 0 ≤ t) (ht1 : t < 1) :
    invPerimeter r t ∈ boundary r ∧
    getPerimeterPos (invPerimeter r t).1 (invPerimeter r t).2 r = t := by
  have hP : (0 : ℚ) < 2 * (r.width + r.height) := by linarith
  have hs0 : 0 ≤ t * (2 * (r.width + r.height)) := mul_nonneg ht0 hP.le
  have hsP : t * (2 * (r.width + r.height)) < 2 * (r.width + r.height) := by
    nlinarith
  simp only [invPerimeter]
  set s := t * (2 * (r.width + r.height)) with hs
  have hts : t = s / (2 * (r.width + r.height)) :=
    (eq_div_iff hP.ne').mpr rfl
  split_ifs with h1 h2 h3
  · refine ⟨Or.inl ⟨Or.inl rfl,
      by show r.x ≤ r.x + s; linarith,
      by show r.x + s ≤ r.x + r.width; linarith⟩, ?_⟩
    show getPerimeterPos (r.x + s) r.y r = t
    rw [gpp_top r hh s hs0 h1.le, hts]
  · have h1le := not_lt.mp h1
    refine ⟨Or.inr ⟨Or.inr rfl,
      by show r.y ≤ r.y + (s - r.width); linarith,
      by show r.y + (s - r.width) ≤ r.y + r.height; linarith⟩, ?_⟩
    show getPerimeterPos (r.x + r.width) (r.y + (s - r.width)) r = t
    rw [gpp_right r hw hh (s - r.width) (by linarith) (by linarith), hts]
    congr 1
    ring
  · have h2le := not_lt.mp h2
    refine ⟨Or.inl ⟨Or.inr rfl,
      by show r.x ≤ r.x + (2 * r.width + r.height - s); linarith,
      by show r.x + (2 * r.width + r.height - s) ≤ r.x + r.width
         linarith⟩, ?_⟩
    show getPerimeterPos (r.x + (2 * r.width + r.height - s))
      (r.y + r.height) r = t
    rw [gpp_bottom r hw hh (2 * r.width + r.height - s) (by linarith)
      (by linarith), hts]
    congr 1
    ring
  · have h3le := not_lt.mp h3
    refine ⟨Or.inr ⟨Or.inl rfl,
      by show r.y ≤ r.y + (2 * (r.width + r.height) - s); linarith,
      by show r.y + (2 * (r.width + r.height) - s) ≤ r.y + r.height
         linarith⟩, ?_⟩
    show getPerimeterPos r.x (r.y + (2 * (r.width + r.height) - s)) r = t
    rw [gpp_left r hw hh (2 * (r.width + r.height) - s) (by linarith)
      (by linarith), hts]
    congr 1
    ring

theorem gpp_leftInv (r : CardBounds) (hw : 0 < r.width) (hh : 0 < r.height) :
    ∀ p ∈ boundary r, invPerimeter r (getPerimeterPos p.1 p.2 r) = p := by
  have hP : (0 : ℚ) < 2 * (r.width + r.height) := by linarith
  rintro ⟨p1, p2⟩ hp
  rcases hp with ⟨hy, hx1, hx2⟩ | ⟨hx, hy1, hy2⟩
  · simp only at hy hx1 hx2
    obtain ⟨a, rfl⟩ : ∃ a, p1 = r.x + a := ⟨p1 - r.x, by ring⟩
    have ha0 : 0 ≤ a := by linarith
    have haw : a ≤ r.width := by linarith
    rcases hy with hy | hy <;> subst hy
    · show invPerimeter r (getPerimeterPos (r.x + a) r.y r) = (r.x + a, r.y)
      rw [gpp_top r hh a ha0 haw]
      simp only [invPerimeter]
      rw [div_mul_cancel₀ _ hP.ne']
      by_cases hlt : a < r.width
      · rw [if_pos hlt]
      · have heq : a = r.width := le_antisymm haw (not_lt.mp hlt)
        subst heq
        rw [if_neg hlt, if_pos (by linarith), Prod.mk.injEq]
        constructor <;> ring
    · show invPerimeter r (getPerimeterPos (r.x + a) (r.y + r.height) r) =
        (r.x + a, r.y + r.height)
      rw [gpp_bottom r hw hh a ha0 haw]
      simp only [invPerimeter]
      rw [div_mul_cancel₀ _ hP.ne']
      have hn1 : ¬(r.width + r.height + (r.width - a) < r.width) := by
        intro hcon; nlinarith
      have hn2 : ¬(r.width + r.height + (r.width - a) <
          r.width + r.height) := by intro hcon; nlinarith
      rw [if_neg hn1, if_neg hn2]
      by_cases hlt : r.width + r.height + (r.width - a) <
          2 * r.width + r.height
      · rw [if_pos hlt, Prod.mk.injEq]
        constructor <;> ring
      · have heq : a = 0 := by nlinarith [not_lt.mp hlt]
        subst heq
        rw [if_neg hlt, Prod.mk.injEq]
        constructor <;> ring
  · simp only at hx hy1 hy2
    obtain ⟨b, rfl⟩ : ∃ b, p2 = r.y + b := ⟨p2 - r.y, by ring⟩
    have hb0 : 0 ≤ b := by linarith
    have hbh : b ≤ r.height := by linarith
    rcases hx with hx | hx <;> subst hx
    · by_cases hb : b = 0
      · subst hb
        show invPerimeter r (getPerimeterPos r.x (r.y + 0) r) =
          (r.x, r.y + 0)
        rw [add_zero, gpp_wrap r hw hh]
        simp only [invPerimeter]
        rw [zero_mul, if_pos hw, Prod.mk.injEq]
        constructor <;> ring
      · have hb0s : 0 < b := lt_of_le_of_ne hb0 (Ne.symm hb)
        show invPerimeter r (getPerimeterPos r.x (r.y + b) r) =
          (r.x, r.y + b)
        rw [gpp_left r hw hh b hb0s hbh]
        simp only [invPerimeter]
        rw [div_mul_cancel₀ _ hP.ne']
        have hn1 : ¬(2 * r.width + r.height + (r.height - b) < r.width) := by
          intro hcon; nlinarith
        have hn2 : ¬(2 * r.width + r.height + (r.height - b) <
            r.width + r.height) := by intro hcon; nlinarith
        have hn3 : ¬(2 * r.width + r.height + (r.height - b) <
            2 * r.width + r.height) := by intro hcon; nlinarith
        rw [if_neg hn1, if_neg hn2, if_neg hn3, Prod.mk.injEq]
        constructor <;> ring
    · show invPerimeter r (getPerimeterPos (r.x + r.width) (r.y + b) r) =
        (r.x + r.width, r.y + b)
      rw [gpp_right r hw hh b hb0 hbh]
      simp only [invPerimeter]
      rw [div_mul_cancel₀ _ hP.ne']
      have hn1 : ¬(r.width + b < r.width) := by intro hcon; nlinarith
      rw [if_neg hn1]
      by_cases hlt : r.width + b < r.width + r.height
      · rw [if_pos hlt, Prod.mk.injEq]
        constructor <;> ring
      · have heq : b = r.height := by nlinarith [not_lt.mp hlt]
        subst heq
        rw [if_neg hlt, if_pos (by nlinarith), Prod.mk.injEq]
        constructor <;> ring

theorem minDist_le_abs (a b : ℚ) : minDist a b ≤ |a - b| := by
  simp only [minDist]
  exact min_le_left _ _

theorem minDist_le_one_sub (a b : ℚ) : minDist a b ≤ 1 - |a - b| := by
  simp only [minDist]
  exact min_le_right _ _

theorem minDist_le_half (a b : ℚ) : minDist a b ≤ 1 / 2 := by
  simp only [minDist]
  rcases le_total |a - b| (1 - |a - b|) with h | h
  · rw [min_eq_left h]
    linarith
  · rw [min_eq_right h]
    linarith

theorem minDist_div_le {fP fQ NP NQ D P : ℚ} (hP : 0 < P)
    (hfP : fP = NP / P) (hfQ : fQ = NQ / P) (h : |NP - NQ| ≤ D) :
    minDist fP fQ ≤ D / P := by
  refine le_trans (minDist_le_abs fP fQ) ?_
  have he : fP - fQ = (NP - NQ) / P := by rw [hfP, hfQ]; ring
  rw [he, abs_div, abs_of_pos hP, div_le_div_iff₀ hP hP]
  nlinarith [abs_nonneg (NP - NQ)]

theorem minDist_wrap_le {fP fQ NP NQ D P : ℚ} (hP : 0 < P)
    (hfP : fP = NP / P) (hfQ : fQ = NQ / P) (h : P - |NP - NQ| ≤ D) :
    minDist fP fQ ≤ D / P := by
  refine le_trans (minDist_le_one_sub fP fQ) ?_
  have he : fP - fQ = (NP - NQ) / P := by rw [hfP, hfQ]; ring
  rw [he, abs_div, abs_of_pos hP]
  have h1 : 1 - |NP - NQ| / P = (P - |NP - NQ|) / P := by
    field_simp
  rw [h1, div_le_div_iff₀ hP hP]
  nlinarith [abs_nonneg (NP - NQ)]

theorem gpp_local_isometry (r : CardBounds) (hw : 0 < r.width)
    (hh : 0 < r.height) (p q : ℚ × ℚ) (hp : p ∈ boundary r)
    (hq : q ∈ boundary r)
    (hnear : |q.1 - p.1| + |q.2 - p.2| < min r.width r.height) :
    minDist (getPerimeterPos p.1 p.2 r) (getPerimeterPos q.1 q.2 r) ≤
      (|q.1 - p.1| + |q.2 - p.2|) / (2 * (r.width + r.height)) := by
  have hP : (0 : ℚ) < 2 * (r.width + r.height) := by linarith
  obtain ⟨p1, p2⟩ := p
  obtain ⟨q1, q2⟩ := q
  have hnear2 : |q1 - p1| + |q2 - p2| < min r.width r.height := hnear
  show minDist (getPerimeterPos p1 p2 r) (getPerimeterPos q1 q2 r) ≤
    (|q1 - p1| + |q2 - p2|) / (2 * (r.width + r.height))
  have hminw : min r.width r.height ≤ r.width := min_le_left _ _
  have hminh : min r.width r.height ≤ r.height := min_le_right _ _
  rcases hp with ⟨hpy, hpx1, hpx2⟩ | ⟨hpx, hpy1, hpy2⟩
  · simp only at hpy hpx1 hpx2
    obtain ⟨a1, rfl⟩ : ∃ a, p1 = r.x + a := ⟨p1 - r.x, by ring⟩
    have ha10 : 0 ≤ a1 := by linarith
    have ha1w : a1 ≤ r.width := by linarith
    rcases hq with ⟨hqy, hqx1, hqx2⟩ | ⟨hqx, hqy1, hqy2⟩
    · simp only at hqy hqx1 hqx2
      obtain ⟨a2, rfl⟩ : ∃ a, q1 = r.x + a := ⟨q1 - r.x, by ring⟩
      have ha20 : 0 ≤ a2 := by linarith
      have ha2w : a2 ≤ r.width := by linarith
      rcases hpy with hpy | hpy <;> subst hpy <;>
        rcases hqy with hqy | hqy <;> subst hqy
      · -- top, top
        refine minDist_div_le hP (gpp_top r hh a1 ha10 ha1w)
          (gpp_top r hh a2 ha20 ha2w) ?_
        rcases abs_cases (a1 - a2) with ⟨he, hs⟩ | ⟨he, hs⟩ <;> rw [he] <;>
          linarith [le_abs_self (r.x + a2 - (r.x + a1)),
            neg_abs_le (r.x + a2 - (r.x + a1)), abs_nonneg (r.y - r.y)]
      · -- top, bottom: vacuous
        exfalso
        have := le_abs_self (r.y + r.height - r.y)
        have := abs_nonneg (r.x + a2 - (r.x + a1))
        linarith
      · -- bottom, top: vacuous
        exfalso
        have := neg_abs_le (r.y - (r.y + r.height))
        have := abs_nonneg (r.x + a2 - (r.x + a1))
        linarith
      · -- bottom, bottom
        refine minDist_div_le hP (gpp_bottom r hw hh a1 ha10 ha1w)
          (gpp_bottom r hw hh a2 ha20 ha2w) ?_
        rcases abs_cases (r.width + r.height + (r.width - a1) -
            (r.width + r.height + (r.width - a2))) with ⟨he, hs⟩ | ⟨he, hs⟩ <;>
          rw [he] <;>
          linarith [le_abs_self (r.x + a2 - (r.x + a1)),
            neg_abs_le (r.x + a2 - (r.x + a1)),
            abs_nonneg (r.y + r.height - (r.y + r.height))]
    · simp only at hqx hqy1 hqy2
      obtain ⟨b2, rfl⟩ : ∃ b, q2 = r.y + b := ⟨q2 - r.y, by ring⟩
      have hb20 : 0 ≤ b2 := by linarith
      have hb2h : b2 ≤ r.height := by linarith
      rcases hpy with hpy | hpy <;> subst hpy <;>
        rcases hqx with hqx | hqx <;> subst hqx
      · -- top, left
        rcases eq_or_lt_of_le hb20 with hb | hb
        · -- q is the wrap corner
          refine minDist_div_le hP (gpp_top r hh a1 ha10 ha1w)
            (show getPerimeterPos r.x (r.y + b2) r =
              0 / (2 * (r.width + r.height)) by
                rw [← hb, add_zero, gpp_wrap r hw hh, zero_div]) ?_
          rcases abs_cases (a1 - 0) with ⟨he, hs⟩ | ⟨he, hs⟩ <;> rw [he] <;>
            linarith [neg_abs_le (r.x - (r.x + a1)),
              le_abs_self (r.y + b2 - r.y), abs_nonneg (r.x - (r.x + a1))]
        · refine minDist_wrap_le hP (gpp_top r hh a1 ha10 ha1w)
            (gpp_left r hw hh b2 hb hb2h) ?_
          rcases abs_cases (a1 - (2 * r.width + r.height +
              (r.height - b2))) with ⟨he, hs⟩ | ⟨he, hs⟩ <;> rw [he] <;>
            linarith [neg_abs_le (r.x - (r.x + a1)),
              le_abs_self (r.y + b2 - r.y)]
      · -- top, right
        refine minDist_div_le hP (gpp_top r hh a1 ha10 ha1w)
          (gpp_right r hw hh b2 hb20 hb2h) ?_
        rcases abs_cases (a1 - (r.width + b2)) with ⟨he, hs⟩ | ⟨he, hs⟩ <;>
          rw [he] <;>
          linarith [le_abs_self (r.x + r.width - (r.x + a1)),
            le_abs_self (r.y + b2 - r.y)]
      · -- bottom, left
        rcases eq_or_lt_of_le hb20 with hb | hb
        · -- q is the wrap corner: vacuous
          exfalso
          have := neg_abs_le (r.y + b2 - (r.y + r.height))
          have := abs_nonneg (r.x - (r.x + a1))
          linarith
        · refine minDist_div_le hP (gpp_bottom r hw hh a1 ha10 ha1w)
            (gpp_left r hw hh b2 hb hb2h) ?_
          rcases abs_cases (r.width + r.height + (r.width - a1) -
              (2 * r.width + r.height + (r.height - b2))) with
            ⟨he, hs⟩ | ⟨he, hs⟩ <;> rw [he] <;>
            linarith [neg_abs_le (r.x - (r.x + a1)),
              neg_abs_le (r.y + b2 - (r.y + r.height))]
      · -- bottom, right
        refine minDist_div_le hP (gpp_bottom r hw hh a1 ha10 ha1w)
          (gpp_right r hw hh b2 hb20 hb2h) ?_
        rcases abs_cases (r.width + r.height + (r.width - a1) -
            (r.width + b2)) with ⟨he, hs⟩ | ⟨he, hs⟩ <;> rw [he] <;>
          linarith [le_abs_self (r.x + r.width - (r.x + a1)),
            neg_abs_le (r.y + b2 - (r.y + r.height))]
  · simp only at hpx hpy1 hpy2
    obtain ⟨b1, rfl⟩ : ∃ b, p2 = r.y + b := ⟨p2 - r.y, by ring⟩
    have hb10 : 0 ≤ b1 := by linarith
    have hb1h : b1 ≤ r.height := by linarith
    rcases hq with ⟨hqy, hqx1, hqx2⟩ | ⟨hqx, hqy1, hqy2⟩
    · simp only at hqy hqx1 hqx2
      obtain ⟨a2, rfl⟩ : ∃ a, q1 = r.x + a := ⟨q1 - r.x, by ring⟩
      have ha20 : 0 ≤ a2 := by linarith
      have ha2w : a2 ≤ r.width := by linarith
      rcases hpx with hpx | hpx <;> subst hpx <;>
        rcases hqy with hqy | hqy <;> subst hqy
      · -- left, top
        rcases eq_or_lt_of_le hb10 with hb | hb
        · -- p is the wrap corner
          refine minDist_div_le hP
            (show getPerimeterPos r.x (r.y + b1) r =
              0 / (2 * (r.width + r.height)) by
                rw [← hb, add_zero, gpp_wrap r hw hh, zero_div])
            (gpp_top r hh a2 ha20 ha2w) ?_
          rcases abs_cases ((0 : ℚ) - a2) with ⟨he, hs⟩ | ⟨he, hs⟩ <;>
            rw [he] <;>
            linarith [le_abs_self (r.x + a2 - r.x),
              neg_abs_le (r.y - (r.y + b1)), abs_nonneg (r.y - (r.y + b1))]
        · refine minDist_wrap_le hP (gpp_left r hw hh b1 hb hb1h)
            (gpp_top r hh a2 ha20 ha2w) ?_
          rcases abs_cases (2 * r.width + r.height + (r.height - b1) - a2)
            with ⟨he, hs⟩ | ⟨he, hs⟩ <;> rw [he] <;>
            linarith [le_abs_self (r.x + a2 - r.x),
              neg_abs_le (r.y - (r.y + b1))]
      · -- left, bottom
        rcases eq_or_lt_of_le hb10 with hb | hb
        · -- p is the wrap corner: vacuous
          exfalso
          have := le_abs_self (r.y + r.height - (r.y + b1))
          have := abs_nonneg (r.x + a2 - r.x)
          linarith
        · refine minDist_div_le hP (gpp_left r hw hh b1 hb hb1h)
            (gpp_bottom r hw hh a2 ha20 ha2w) ?_
          rcases abs_cases (2 * r.width + r.height + (r.height - b1) -
              (r.width + r.height + (r.width - a2))) with
            ⟨he, hs⟩ | ⟨he, hs⟩ <;> rw [he] <;>
            linarith [le_abs_self (r.x + a2 - r.x),
              le_abs_self (r.y + r.height - (r.y + b1))]
      · -- right, top
        refine minDist_div_le hP (gpp_right r hw hh b1 hb10 hb1h)
          (gpp_top r hh a2 ha20 ha2w) ?_
        rcases abs_cases (r.width + b1 - a2) with ⟨he, hs⟩ | ⟨he, hs⟩ <;>
          rw [he] <;>
          linarith [neg_abs_le (r.x + a2 - (r.x + r.width)),
            neg_abs_le (r.y - (r.y + b1))]
      · -- right, bottom
        refine minDist_div_le hP (gpp_right r hw hh b1 hb10 hb1h)
          (gpp_bottom r hw hh a2 ha20 ha2w) ?_
        rcases abs_cases (r.width + b1 -
            (r.width + r.height + (r.width - a2))) with ⟨he, hs⟩ | ⟨he, hs⟩ <;>
          rw [he] <;>
          linarith [neg_abs_le (r.x + a2 - (r.x + r.width)),
            le_abs_self (r.y + r.height - (r.y + b1))]
    · simp only at hqx hqy1 hqy2
      obtain ⟨b2, rfl⟩ : ∃ b, q2 = r.y + b := ⟨q2 - r.y, by ring⟩
      have hb20 : 0 ≤ b2 := by linarith
      have hb2h : b2 ≤ r.height := by linarith
      rcases hpx with hpx | hpx <;> subst hpx <;>
        rcases hqx with hqx | hqx <;> subst hqx
      · -- left, left
        rcases eq_or_lt_of_le hb10 with hb1 | hb1 <;>
          rcases eq_or_lt_of_le hb20 with hb2 | hb2
        · refine minDist_div_le hP
            (show getPerimeterPos r.x (r.y + b1) r =
              0 / (2 * (r.width + r.height)) by
                rw [← hb1, add_zero, gpp_wrap r hw hh, zero_div])
            (show getPerimeterPos r.x (r.y + b2) r =
              0 / (2 * (r.width + r.height)) by
                rw [← hb2, add_zero, gpp_wrap r hw hh, zero_div]) ?_
          simp only [sub_self, abs_zero]
          positivity
        · refine minDist_wrap_le hP
            (show getPerimeterPos r.x (r.y + b1) r =
              0 / (2 * (r.width + r.height)) by
                rw [← hb1, add_zero, gpp_wrap r hw hh, zero_div])
            (gpp_left r hw hh b2 hb2 hb2h) ?_
          rcases abs_cases ((0 : ℚ) -
              (2 * r.width + r.height + (r.height - b2))) with
            ⟨he, hs⟩ | ⟨he, hs⟩ <;> rw [he] <;>
            linarith [le_abs_self (r.y + b2 - (r.y + b1)),
              abs_nonneg (r.x - r.x)]
        · refine minDist_wrap_le hP (gpp_left r hw hh b1 hb1 hb1h)
            (show getPerimeterPos r.x (r.y + b2) r =
              0 / (2 * (r.width + r.height)) by
                rw [← hb2, add_zero, gpp_wrap r hw hh, zero_div]) ?_
          rcases abs_cases (2 * r.width + r.height + (r.height - b1) -
              0) with ⟨he, hs⟩ | ⟨he, hs⟩ <;> rw [he] <;>
            linarith [neg_abs_le (r.y + b2 - (r.y + b1)),
              abs_nonneg (r.x - r.x)]
        · refine minDist_div_le hP (gpp_left r hw hh b1 hb1 hb1h)
            (gpp_left r hw hh b2 hb2 hb2h) ?_
          rcases abs_cases (2 * r.width + r.height + (r.height - b1) -
              (2 * r.width + r.height + (r.height - b2))) with
            ⟨he, hs⟩ | ⟨he, hs⟩ <;> rw [he] <;>
            linarith [le_abs_self (r.y + b2 - (r.y + b1)),
              neg_abs_le (r.y + b2 - (r.y + b1)), abs_nonneg (r.x - r.x)]
      · -- left, right: vacuous
        exfalso
        have := le_abs_self (r.x + r.width - r.x)
        have := abs_nonneg (r.y + b2 - (r.y + b1))
        linarith
      · -- right, left: vacuous
        exfalso
        have := neg_abs_le (r.x - (r.x + r.width))
        have := abs_nonneg (r.y + b2 - (r.y + b1))
        linarith
      · -- right, right
        refine minDist_div_le hP (gpp_right r hw hh b1 hb10 hb1h)
          (gpp_right r hw hh b2 hb20 hb2h) ?_
        rcases abs_cases (r.width + b1 - (r.width + b2)) with
          ⟨he, hs⟩ | ⟨he, hs⟩ <;> rw [he] <;>
          linarith [le_abs_self (r.y + b2 - (r.y + b1)),
            neg_abs_le (r.y + b2 - (r.y + b1)),
            abs_nonneg (r.x + r.width - (r.x + r.width))]

theorem gpp_pos_of_ne_wrap (r : CardBounds) (hw : 0 < r.width)
    (hh : 0 < r.height) :
    ∀ p ∈ boundary r, p ≠ (r.x, r.y) → 0 < getPerimeterPos p.1 p.2 r := by
  have hP : (0 : ℚ) < 2 * (r.width + r.height) := by linarith
  rintro ⟨p1, p2⟩ hp hne
  rcases hp with ⟨hy, hx1, hx2⟩ | ⟨hx, hy1, hy2⟩
  · simp only at hy hx1 hx2
    obtain ⟨a, rfl⟩ : ∃ a, p1 = r.x + a := ⟨p1 - r.x, by ring⟩
    have ha0 : 0 ≤ a := by linarith
    have haw : a ≤ r.width := by linarith
    rcases hy with hy | hy <;> subst hy
    · show 0 < getPerimeterPos (r.x + a) r.y r
      rw [gpp_top r hh a ha0 haw]
      have ha : 0 < a := by
        rcases lt_or_eq_of_le ha0 with h | h
        · exact h
        · exact absurd (by rw [← h, add_zero] : ((r.x + a, r.y) : ℚ × ℚ) =
            (r.x, r.y)) hne
      positivity
    · show 0 < getPerimeterPos (r.x + a) (r.y + r.height) r
      rw [gpp_bottom r hw hh a ha0 haw]
      have : (0 : ℚ) < r.width + r.height + (r.width - a) := by linarith
      positivity
  · simp only at hx hy1 hy2
    obtain ⟨b, rfl⟩ : ∃ b, p2 = r.y + b := ⟨p2 - r.y, by ring⟩
    have hb0 : 0 ≤ b := by linarith
    have hbh : b ≤ r.height := by linarith
    rcases hx with hx | hx <;> subst hx
    · have hb : 0 < b := by
        rcases lt_or_eq_of_le hb0 with h | h
        · exact h
        · exact absurd (by rw [← h, add_zero] : ((r.x, r.y + b) : ℚ × ℚ) =
            (r.x, r.y)) hne
      show 0 < getPerimeterPos r.x (r.y + b) r
      rw [gpp_left r hw hh b hb hbh]
      have : (0 : ℚ) < 2 * r.width + r.height + (r.height - b) := by linarith
      positivity
    · show 0 < getPerimeterPos (r.x + r.width) (r.y + b) r
      rw [gpp_right r hw hh b hb0 hbh]
      have : (0 : ℚ) < r.width + b := by linarith
      positivity

theorem gpp_continuous_off_wrap (r : CardBounds) (hw : 0 < r.width)
    (hh : 0 < r.height) :
    ∀ p ∈ boundary r, p ≠ (r.x, r.y) → ∀ ε : ℚ, 0 < ε → ∃ δ : ℚ, 0 < δ ∧
      ∀ q ∈ boundary r, |q.1 - p.1| + |q.2 - p.2| < δ →
        |getPerimeterPos q.1 q.2 r - getPerimeterPos p.1 p.2 r| < ε := by
  intro p hp hne ε hε
  have hP : (0 : ℚ) < 2 * (r.width + r.height) := by linarith
  have hv0 : 0 < getPerimeterPos p.1 p.2 r :=
    gpp_pos_of_ne_wrap r hw hh p hp hne
  have hv1 : getPerimeterPos p.1 p.2 r < 1 := (gpp_range r hw hh p.1 p.2).2
  set v := getPerimeterPos p.1 p.2 r with hv
  set m := min ε (min v (1 - v)) with hm
  have hm0 : 0 < m := lt_min hε (lt_min hv0 (by linarith))
  refine ⟨min (min r.width r.height) (2 * (r.width + r.height) * m),
    lt_min (lt_min hw hh) (by positivity), ?_⟩
  intro q hq hqδ
  have hnear : |q.1 - p.1| + |q.2 - p.2| < min r.width r.height :=
    lt_of_lt_of_le hqδ (min_le_left _ _)
  have hiso := gpp_local_isometry r hw hh p q hp hq hnear
  have hD2 : |q.1 - p.1| + |q.2 - p.2| < 2 * (r.width + r.height) * m :=
    lt_of_lt_of_le hqδ (min_le_right _ _)
  set u := getPerimeterPos q.1 q.2 r with hu
  have hu0 : 0 ≤ u := (gpp_range r hw hh q.1 q.2).1
  have hu1 : u < 1 := (gpp_range r hw hh q.1 q.2).2
  have hmlt : minDist v u < m := by
    refine lt_of_le_of_lt hiso ?_
    rw [div_lt_iff₀ hP]
    linarith [hD2]
  have hma : m ≤ ε := min_le_left _ _
  have hmb : m ≤ v := le_trans (min_le_right _ _) (min_le_left _ _)
  have hmc : m ≤ 1 - v := le_trans (min_le_right _ _) (min_le_right _ _)
  rcases le_total |v - u| (1 - |v - u|) with hc | hc
  · have hmd : minDist v u = |v - u| := by
      simp only [minDist]
      exact min_eq_left hc
    rw [hmd] at hmlt
    calc |u - v| = |v - u| := abs_sub_comm u v
    _ < m := hmlt
    _ ≤ ε := hma
  · have hmd : minDist v u = 1 - |v - u| := by
      simp only [minDist]
      exact min_eq_right hc
    rw [hmd] at hmlt
    exfalso
    rcases abs_cases (v - u) with ⟨he, hs⟩ | ⟨he, hs⟩ <;> rw [he] at hmlt <;>
      linarith

theorem gpp_discont_at_wrap (r : CardBounds) (hw : 0 < r.width)
    (hh : 0 < r.height) :
    ∀ δ : ℚ, 0 < δ → ∃ q, q ∈ boundary r ∧
      |q.1 - r.x| + |q.2 - r.y| < δ ∧
      1 / 2 ≤ |getPerimeterPos q.1 q.2 r - getPerimeterPos r.x r.y r| := by
  intro δ hδ
  have hP : (0 : ℚ) < 2 * (r.width + r.height) := by linarith
  set b := min (δ / 2) (r.height / 2) with hb
  have hb0 : 0 < b := lt_min (by linarith) (by linarith)
  have hbδ : b < δ := lt_of_le_of_lt (min_le_left _ _) (by linarith)
  have hbh : b ≤ r.height := le_trans (min_le_right _ _) (by linarith)
  refine ⟨(r.x, r.y + b), Or.inr ⟨Or.inl rfl,
    by show r.y ≤ r.y + b; linarith,
    by show r.y + b ≤ r.y + r.height; linarith⟩, ?_, ?_⟩
  · show |r.x - r.x| + |r.y + b - r.y| < δ
    rw [sub_self, abs_zero, show r.y + b - r.y = b by ring,
      abs_of_pos hb0]
    linarith
  · show (1 : ℚ) / 2 ≤ |getPerimeterPos r.x (r.y + b) r -
      getPerimeterPos r.x r.y r|
    rw [gpp_left r hw hh b hb0 hbh, gpp_wrap r hw hh, sub_zero]
    have hval : (0 : ℚ) < (2 * r.width + r.height + (r.height - b)) /
        (2 * (r.width + r.height)) := div_pos (by linarith) hP
    rw [abs_of_pos hval, le_div_iff₀ hP]
    linarith

/-- C3: for every rectangle with positive width and height,
`getPerimeterPos` maps every input point into `[0,1)`; restricted to the
rectangle's boundary it is a bijection onto `[0,1)` (inverted by the
clockwise arc-length parametrization from the top-left corner), it is
continuous at every boundary point except the wrap point `(x, y)` where it
jumps by at least 1/2; and `minDist a b = min(|a-b|, 1-|a-b|)` never
exceeds 1/2. -/
theorem getPerimeterPos_spec (r : CardBounds) (hw : 0 < r.width)
    (hh : 0 < r.height) :
    (∀ px py : ℚ, 0 ≤ getPerimeterPos px py r ∧
      getPerimeterPos px py r < 1) ∧
    Set.BijOn (fun p : ℚ × ℚ => getPerimeterPos p.1 p.2 r) (boundary r)
      (Set.Ico 0 1) ∧
    (∀ a b : ℚ, minDist a b = min |a - b| (1 - |a - b|) ∧
      minDist a b ≤ 1 / 2) ∧
    (∀ p ∈ boundary r, p ≠ (r.x, r.y) → ∀ ε : ℚ, 0 < ε → ∃ δ : ℚ, 0 < δ ∧
      ∀ q ∈ boundary r, |q.1 - p.1| + |q.2 - p.2| < δ →
        |getPerimeterPos q.1 q.2 r - getPerimeterPos p.1 p.2 r| < ε) ∧
    (∀ δ : ℚ, 0 < δ → ∃ q, q ∈ boundary r ∧
      |q.1 - r.x| + |q.2 - r.y| < δ ∧
      1 / 2 ≤ |getPerimeterPos q.1 q.2 r - getPerimeterPos r.x r.y r|) := by
  refine ⟨gpp_range r hw hh, ?_, fun a b => ⟨rfl, minDist_le_half a b⟩,
    gpp_continuous_off_wrap r hw hh, gpp_discont_at_wrap r hw hh⟩
  have hinv : Set.InvOn (invPerimeter r)
      (fun p : ℚ × ℚ => getPerimeterPos p.1 p.2 r) (boundary r)
      (Set.Ico 0 1) :=
    ⟨fun p hp => gpp_leftInv r hw hh p hp,
     fun t ht => (invPerimeter_maps r hw hh t ht.1 ht.2).2⟩
  exact hinv.bijOn
    (fun p _ => ⟨(gpp_range r hw hh p.1 p.2).1,
      (gpp_range r hw hh p.1 p.2).2⟩)
    (fun t ht => (invPerimeter_maps r hw hh t ht.1 ht.2).1)

/-- Witness for C3 at the 100×100 demo card: a sample point maps into
`[0,1)` and a sample pair of perimeter positions is at wrap-around
distance at most 1/2. -/
theorem getPerimeterPos_spec_witness :
    ((0 : ℚ) < demoCard.width ∧ (0 : ℚ) < demoCard.height) ∧
    (0 ≤ getPerimeterPos 3 0 demoCard ∧ getPerimeterPos 3 0 demoCard < 1) ∧
    minDist (1 / 4) (3 / 4) ≤ 1 / 2 :=
  ⟨⟨by norm_num [demoCard], by norm_num [demoCard]⟩,
   (getPerimeterPos_spec demoCard (by norm_num [demoCard])
     (by norm_num [demoCard])).1 3 0,
   ((getPerimeterPos_spec demoCard (by norm_num [demoCard])
     (by norm_num [demoCard])).2.2.1 (1 / 4) (3 / 4)).2⟩

end Blog
